import Mathlib

/-
Verification of the reconciliation and transfer engine described in the
iBridges specification (spec.md) and the documentation under docs/source
(sync.rst, data_transfers.rst).  The Python implementation of the engine
(ibridges.data_operations, ibridges.executor, ibridges.path) is not part of
the available source tree, so every engine definition below is modelled
from the specification text, as indicated by its doc comment.
-/

/-- Modelled from the spec: a relative_path is the ordered sequence of path
segments from the walk root (spec.md section 3, TreeEntry). -/
abbrev RelPath := List String

/-- Modelled from the spec: the kind of a tree entry, CONTAINER (directory or
collection) or LEAF (file or data object) (spec.md section 3). -/
inductive EntryKind
  | container
  | leaf
deriving DecidableEq

/-- Modelled from the spec: the data of one TreeEntry beyond its
relative_path: kind, size in bytes and content fingerprint (checksum)
(spec.md section 3, TreeEntry). -/
structure Entry where
  kind : EntryKind
  size : Nat
  checksum : String
deriving DecidableEq

/-- Modelled from the spec: the observable content of one storage domain
(local directory tree or remote collection tree), as the association of each
relative_path to its entry, in the pre-order the Tree Walker enumerates
(spec.md sections 3 and 4.2). -/
abbrev Domain := List (RelPath × Entry)

/-- Modelled from the spec: the existence and kind probe of the Path
Abstraction, as first-match association lookup (spec.md section 4.1). -/
def lookupEntry : Domain → RelPath → Option Entry
  | [], _ => none
  | (q, f) :: rest, p => if q = p then some f else lookupEntry rest p

/-- Modelled from the spec: writing an entry at a relative_path in a domain,
replacing the entry already recorded there if any (spec.md section 4.4,
create-or-truncate semantics of the copy primitives). -/
def setEntry : Domain → RelPath → Entry → Domain
  | [], p, e => [(p, e)]
  | (q, f) :: rest, p, e =>
    if q = p then (p, e) :: rest else (q, f) :: setEntry rest p e

/-- Modelled from the spec: the TransferPolicy configuration value
(spec.md section 3). -/
structure TransferPolicy where
  overwrite : Bool
  ignore_err : Bool
  max_depth : Option Nat
  copy_empty_containers : Bool
  dry_run : Bool
  verify_checksum : Bool
deriving DecidableEq

/-- Modelled from the spec: a relative_path is within the depth bound when it
has at most `max_depth` segments; `none` means unlimited (spec.md P3 and
sync.rst max_level option). -/
def depthOk (n : Option Nat) (p : RelPath) : Bool :=
  match n with
  | none => true
  | some k => decide (p.length ≤ k)

/-- Modelled from the spec: `q` lies strictly below `p` in the tree when `p`
is a proper segment-wise prefix of `q`. -/
def strictUnder (p q : RelPath) : Bool :=
  p.isPrefixOf q && decide (p.length < q.length)

/-- Modelled from the spec: a container is non-empty below when the source
tree holds some entry strictly under it (spec.md section 4.3, empty
container rule, and P3). -/
def hasDescendant (src : Domain) (p : RelPath) : Bool :=
  src.any (fun qe => strictUnder p qe.1)

/-- Modelled from the spec: the tagged Operation variant emitted by the Diff
Engine (spec.md section 3); `copyLeaf` carries the source entry, which holds
the expected size and source checksum. -/
inductive Operation
  | createContainer (path : RelPath)
  | copyLeaf (path : RelPath) (src : Entry)
  | skipOp (path : RelPath) (reason : String)
deriving DecidableEq

/-- The relative_path an operation references. -/
def Operation.path : Operation → RelPath
  | .createContainer p => p
  | .copyLeaf p _ => p
  | .skipOp p _ => p

/-- The relative_paths referenced by an operation list. -/
def pathsOf (ops : List Operation) : List RelPath :=
  ops.map Operation.path

/-- Modelled from the spec: size-first comparison of two leaves, checksum
compared only when the sizes match and verification is requested (spec.md
section 4.3). -/
def leafDiffers (pol : TransferPolicy) (s t : Entry) : Bool :=
  !(decide (s.size = t.size)) ||
    (pol.verify_checksum && !(decide (s.checksum = t.checksum)))

/-- Modelled from the spec: the Diff Engine's per-entry rule for one source
TreeEntry, matched against the target by relative_path (spec.md
section 4.3). -/
def diffEntry (pol : TransferPolicy) (src tgt : Domain) (pe : RelPath × Entry) :
    Option Operation :=
  match lookupEntry tgt pe.1, pe.2.kind with
  | none, .container =>
    if pol.copy_empty_containers || hasDescendant src pe.1 then
      some (.createContainer pe.1)
    else
      none
  | none, .leaf => some (.copyLeaf pe.1 pe.2)
  | some t, .leaf =>
    match t.kind with
    | .leaf => if leafDiffers pol pe.2 t then some (.copyLeaf pe.1 pe.2) else none
    | .container => some (.skipOp pe.1 "kind mismatch")
  | some t, .container =>
    match t.kind with
    | .container => none
    | .leaf => some (.skipOp pe.1 "kind mismatch")

/-- Modelled from the spec: the Diff Engine's ordered operation list: every
source entry within the depth bound is matched against the target in source
pre-order; target-only paths generate nothing (spec.md section 4.3). -/
def diffOps (pol : TransferPolicy) (src tgt : Domain) : List Operation :=
  (src.filter (fun pe => depthOk pol.max_depth pe.1)).filterMap
    (diffEntry pol src tgt)

/-- Modelled from the spec: the ChangeReport accumulator (spec.md section 3):
containers created, leaf copies performed (with the source entry), skipped
paths with reasons, recorded warnings, and failures with cause. -/
structure ChangeReport where
  created : List RelPath
  copies : List (RelPath × Entry)
  skips : List (RelPath × String)
  warnings : List (RelPath × String)
  failures : List (RelPath × String)
deriving DecidableEq

/-- The empty change report a synchronization call starts from. -/
def ChangeReport.empty : ChangeReport :=
  ⟨[], [], [], [], []⟩

/-- All relative_paths mentioned anywhere in a change report. -/
def reportPaths (r : ChangeReport) : List RelPath :=
  r.created ++ r.copies.map Prod.fst ++ r.skips.map Prod.fst ++
    r.warnings.map Prod.fst ++ r.failures.map Prod.fst

/-- Modelled from the spec: the error taxonomy of section 7 that the claims
exercise, together with the CAT_UNKNOWN_COLLECTION failure documented for
upload in data_transfers.rst. -/
inductive SyncError
  | alreadyExists (p : RelPath)
  | integrity (p : RelPath)
  | ioError (p : RelPath) (msg : String)
  | catUnknownCollection (p : RelPath)
deriving DecidableEq

/-- Modelled from the spec: the outcome of one invocation of the byte-moving
copy primitive supplied by the domain collaborators: either some bytes
landed at the target (with their observed size and checksum) or the
transport failed (spec.md sections 2 and 6). -/
inductive CopyOutcome
  | landed (size : Nat) (checksum : String)
  | ioFailure (msg : String)

/-- A copy primitive: what lands at the target when a given source entry is
copied to a given relative_path. -/
abbrev CopyFn := RelPath → Entry → CopyOutcome

/-- The ideal copy primitive: the bytes land unchanged. -/
def perfectCopy : CopyFn :=
  fun _ e => .landed e.size e.checksum

/-- The executor's running state: the report built so far and the current
content of the target domain. -/
structure ExecState where
  report : ChangeReport
  state : Domain
deriving DecidableEq

/-- Record a created container in the report. -/
def addCreated (st : ExecState) (p : RelPath) : ExecState :=
  { st with report := { st.report with created := st.report.created ++ [p] } }

/-- Record a completed (or dry-run listed) leaf copy in the report. -/
def addCopy (st : ExecState) (p : RelPath) (e : Entry) : ExecState :=
  { st with report := { st.report with copies := st.report.copies ++ [(p, e)] } }

/-- Record a skipped path with its reason in the report. -/
def addSkip (st : ExecState) (p : RelPath) (r : String) : ExecState :=
  { st with report := { st.report with skips := st.report.skips ++ [(p, r)] } }

/-- Record a warning in the report. -/
def addWarn (st : ExecState) (p : RelPath) (m : String) : ExecState :=
  { st with report := { st.report with warnings := st.report.warnings ++ [(p, m)] } }

/-- Record a failure with its cause in the report. -/
def addFail (st : ExecState) (p : RelPath) (m : String) : ExecState :=
  { st with report := { st.report with failures := st.report.failures ++ [(p, m)] } }

/-- Write an entry into the target domain part of the executor state. -/
def setSt (st : ExecState) (p : RelPath) (l : Entry) : ExecState :=
  { st with state := setEntry st.state p l }

/-- Modelled from the spec: the post-copy verification: the re-read byte
count must equal the source size and, when `verify_checksum` is requested,
the re-read checksum must equal the source checksum (spec.md
section 4.4). -/
def verified (pol : TransferPolicy) (srcE landed : Entry) : Bool :=
  decide (landed.size = srcE.size) &&
    (!pol.verify_checksum || decide (landed.checksum = srcE.checksum))

/-- Modelled from the spec: dry-run recording: the operation is appended to
the report unexecuted (spec.md section 4.4). -/
def recordDry (st : ExecState) : Operation → ExecState
  | .createContainer p => addCreated st p
  | .copyLeaf p e => addCopy st p e
  | .skipOp p r => addSkip st p r

/-- Modelled from the spec: performing one leaf copy: invoke the copy
primitive, then verify; a verification mismatch raises IntegrityError
regardless of policy, a transport failure is downgraded to a warning only
when `ignore_err` is set (spec.md sections 4.4 and 7). -/
def doCopy (pol : TransferPolicy) (cp : CopyFn) (st : ExecState) (p : RelPath)
    (e : Entry) : ExecState × Option SyncError :=
  match cp p e with
  | .ioFailure msg =>
    if pol.ignore_err then (addWarn st p msg, none)
    else (addFail st p msg, some (.ioError p msg))
  | .landed sz cs =>
    let l : Entry := ⟨.leaf, sz, cs⟩
    let st' := setSt st p l
    if verified pol e l then (addCopy st' p e, none)
    else (addFail st' p "IntegrityError", some (.integrity p))

/-- Modelled from the spec: executing a single operation under the policy:
dry-run only records; CreateContainer is idempotent; CopyLeaf applies the
overwrite and ignore_err error matrix for an already existing target
(spec.md section 4.4). -/
def execOp (pol : TransferPolicy) (cp : CopyFn) (st : ExecState)
    (op : Operation) : ExecState × Option SyncError :=
  if pol.dry_run then (recordDry st op, none)
  else
    match op with
    | .createContainer p =>
      match lookupEntry st.state p with
      | some _ => (st, none)
      | none => (addCreated (setSt st p ⟨.container, 0, ""⟩) p, none)
    | .skipOp p r => (addSkip st p r, none)
    | .copyLeaf p e =>
      match lookupEntry st.state p with
      | some _ =>
        if pol.overwrite then doCopy pol cp st p e
        else if pol.ignore_err then (addSkip st p "already exists", none)
        else (addFail st p "AlreadyExistsError", some (.alreadyExists p))
      | none => doCopy pol cp st p e

/-- Modelled from the spec: the Transfer Executor: operations run in the
order given and a fatal error stops the run, the partial report and state
being returned with the error (spec.md sections 4.4 and 7). -/
def execute (pol : TransferPolicy) (cp : CopyFn) :
    List Operation → ExecState → ExecState × Option SyncError
  | [], st => (st, none)
  | op :: rest, st =>
    match execOp pol cp st op with
    | (st', none) => execute pol cp rest st'
    | (st', some e) => (st', some e)

/-- Modelled from the spec: one synchronization run: the Diff Engine
computes the operation list from the two tree snapshots and the Transfer
Executor runs it against the target, starting from an empty report
(spec.md section 2). -/
def sync (pol : TransferPolicy) (cp : CopyFn) (src tgt : Domain) :
    ExecState × Option SyncError :=
  execute pol cp (diffOps pol src tgt) ⟨ChangeReport.empty, tgt⟩

/-- Modelled from the spec: re-walking a domain with a depth bound
enumerates exactly its entries within the bound (spec.md section 4.2). -/
def walkEntries (d : Domain) (n : Option Nat) : Domain :=
  d.filter (fun pe => depthOk n pe.1)

/-- Modelled from the spec: the destination-collection handling of upload
(ibridges.data_operations.upload is not in the available sources): a missing
final destination collection is created on the fly, but when the parent of
the destination is itself missing no collection is created and the call
fails with CAT_UNKNOWN_COLLECTION naming the missing parent
(docs/source/data_transfers.rst, upload section). -/
def ensureDestCollection (existing : List RelPath) (dest : RelPath) :
    Except SyncError (List RelPath) :=
  if dest ∈ existing then Except.ok existing
  else if dest.dropLast ∈ existing then Except.ok (existing ++ [dest])
  else Except.error (SyncError.catUnknownCollection dest.dropLast)

/-- Pointwise concatenation of two change reports. -/
def ChangeReport.append (a b : ChangeReport) : ChangeReport :=
  ⟨a.created ++ b.created, a.copies ++ b.copies, a.skips ++ b.skips,
   a.warnings ++ b.warnings, a.failures ++ b.failures⟩

theorem ChangeReport.append_empty (a : ChangeReport) :
    a.append ChangeReport.empty = a := by
  cases a; simp [ChangeReport.append, ChangeReport.empty]

theorem ChangeReport.append_assoc (a b c : ChangeReport) :
    (a.append b).append c = a.append (b.append c) := by
  cases a; cases b; cases c; simp [ChangeReport.append]

theorem mem_reportPaths_append {a b : ChangeReport} {x : RelPath} :
    x ∈ reportPaths (a.append b) ↔ x ∈ reportPaths a ∨ x ∈ reportPaths b := by
  cases a; cases b
  simp only [reportPaths, ChangeReport.append, List.map_append, List.mem_append]
  tauto

theorem lookup_setEntry_self (d : Domain) (p : RelPath) (e : Entry) :
    lookupEntry (setEntry d p e) p = some e := by
  induction d with
  | nil => simp [setEntry, lookupEntry]
  | cons qf rest ih =>
    obtain ⟨q, f⟩ := qf
    by_cases h : q = p
    · simp [setEntry, h, lookupEntry]
    · simp [setEntry, h, lookupEntry, ih]

theorem lookup_setEntry_ne (d : Domain) (p q : RelPath) (e : Entry)
    (h : q ≠ p) : lookupEntry (setEntry d p e) q = lookupEntry d q := by
  induction d with
  | nil =>
    simp only [setEntry, lookupEntry]
    rw [if_neg (fun hh : p = q => h hh.symm)]
  | cons qf rest ih =>
    obtain ⟨r, f⟩ := qf
    by_cases hr : r = p
    · subst hr
      simp only [setEntry, if_pos rfl, lookupEntry]
      rw [if_neg (fun hh : r = q => h hh.symm),
        if_neg (fun hh : r = q => h hh.symm)]
    · simp [setEntry, hr, lookupEntry, ih]

theorem lookupEntry_mem {d : Domain} {p : RelPath} {e : Entry}
    (h : lookupEntry d p = some e) : (p, e) ∈ d := by
  induction d with
  | nil => simp [lookupEntry] at h
  | cons qf rest ih =>
    obtain ⟨q, f⟩ := qf
    by_cases hq : q = p
    · subst hq
      have hfe : f = e := by simpa [lookupEntry] using h
      subst hfe
      exact List.mem_cons_self _ _
    · simp only [lookupEntry, if_neg hq] at h
      exact List.mem_cons_of_mem _ (ih h)

theorem key_unique {l : Domain} (h : (l.map Prod.fst).Nodup) {p : RelPath}
    {a b : Entry} (ha : (p, a) ∈ l) (hb : (p, b) ∈ l) : a = b := by
  induction l with
  | nil => cases ha
  | cons x rest ih =>
    obtain ⟨q, c⟩ := x
    simp only [List.map_cons, List.nodup_cons] at h
    rcases List.mem_cons.1 ha with ha1 | ha2 <;>
      rcases List.mem_cons.1 hb with hb1 | hb2
    · injection ha1 with h1 h2
      injection hb1 with h3 h4
      rw [h2, h4]
    · injection ha1 with h1 h2
      exact absurd (h1 ▸ List.mem_map_of_mem Prod.fst hb2) h.1
    · injection hb1 with h3 h4
      exact absurd (h3 ▸ List.mem_map_of_mem Prod.fst ha2) h.1
    · exact ih h.2 ha2 hb2

theorem diffEntry_path {pol : TransferPolicy} {src tgt : Domain}
    {pe : RelPath × Entry} {op : Operation}
    (h : diffEntry pol src tgt pe = some op) : op.path = pe.1 := by
  obtain ⟨p, e⟩ := pe
  unfold diffEntry at h
  repeat' split at h
  all_goals (try injection h with h)
  all_goals (try cases h)
  all_goals rfl

theorem diffEntry_copyLeaf_elim {pol : TransferPolicy} {src tgt : Domain}
    {p p' : RelPath} {e e' : Entry}
    (h : diffEntry pol src tgt (p, e) = some (.copyLeaf p' e')) :
    p' = p ∧ e' = e ∧ e.kind = .leaf := by
  unfold diffEntry at h
  repeat' split at h
  all_goals simp_all

theorem diffEntry_createContainer_elim {pol : TransferPolicy}
    {src tgt : Domain} {p p' : RelPath} {e : Entry}
    (h : diffEntry pol src tgt (p, e) = some (.createContainer p')) :
    p' = p ∧ e.kind = .container ∧ lookupEntry tgt p = none := by
  unfold diffEntry at h
  repeat' split at h
  all_goals simp_all

theorem mem_diffOps {pol : TransferPolicy} {src tgt : Domain}
    {op : Operation} :
    op ∈ diffOps pol src tgt ↔
      ∃ pe, pe ∈ src ∧ depthOk pol.max_depth pe.1 = true ∧
        diffEntry pol src tgt pe = some op := by
  simp only [diffOps, List.mem_filterMap, List.mem_filter]
  constructor
  · rintro ⟨pe, ⟨h1, h2⟩, h3⟩
    exact ⟨pe, h1, h2, h3⟩
  · rintro ⟨pe, h1, h2, h3⟩
    exact ⟨pe, ⟨h1, h2⟩, h3⟩

theorem path_mem_of_mem_diffOps {pol : TransferPolicy} {src tgt : Domain}
    {op : Operation} (h : op ∈ diffOps pol src tgt) :
    op.path ∈ src.map Prod.fst ∧ depthOk pol.max_depth op.path = true := by
  rcases mem_diffOps.1 h with ⟨pe, hmem, hdep, hde⟩
  have hp := diffEntry_path hde
  exact ⟨hp ▸ List.mem_map_of_mem Prod.fst hmem, hp ▸ hdep⟩

theorem not_mem_diff_paths {pol : TransferPolicy} {src tgt : Domain}
    {p : RelPath} (h : p ∉ src.map Prod.fst) :
    p ∉ pathsOf (diffOps pol src tgt) := by
  intro hp
  simp only [pathsOf, List.mem_map] at hp
  rcases hp with ⟨op, hop, rfl⟩
  exact h (path_mem_of_mem_diffOps hop).1

theorem paths_nodup_filterMap (f : RelPath × Entry → Option Operation)
    (hf : ∀ pe op, f pe = some op → op.path = pe.1) :
    ∀ l : Domain, (l.map Prod.fst).Nodup →
      ((l.filterMap f).map Operation.path).Nodup := by
  intro l
  induction l with
  | nil => simp
  | cons x rest ih =>
    intro h
    simp only [List.map_cons, List.nodup_cons] at h
    rcases hx : f x with _ | op
    · simpa [List.filterMap_cons, hx] using ih h.2
    · simp only [List.filterMap_cons, hx, List.map_cons, List.nodup_cons]
      refine ⟨?_, ih h.2⟩
      intro hmem
      rcases List.mem_map.1 hmem with ⟨op', hop', hpath⟩
      rcases List.mem_filterMap.1 hop' with ⟨pe, hpe, hfpe⟩
      apply h.1
      have hx1 : x.1 = pe.1 := by
        rw [← hf _ _ hx, ← hpath, hf _ _ hfpe]
      rw [hx1]
      exact List.mem_map_of_mem Prod.fst hpe

theorem diffOps_paths_nodup {pol : TransferPolicy} {src tgt : Domain}
    (h : (src.map Prod.fst).Nodup) :
    (pathsOf (diffOps pol src tgt)).Nodup := by
  have hsub : ((src.filter
      (fun pe => depthOk pol.max_depth pe.1)).map Prod.fst).Nodup :=
    List.Nodup.sublist (List.Sublist.map Prod.fst (List.filter_sublist src)) h
  exact paths_nodup_filterMap _ (fun _ _ hde => diffEntry_path hde) _ hsub

theorem diffEntry_congr {pol : TransferPolicy} {src tgt tgt' : Domain}
    {pe : RelPath × Entry}
    (h : lookupEntry tgt' pe.1 = lookupEntry tgt pe.1) :
    diffEntry pol src tgt' pe = diffEntry pol src tgt pe := by
  unfold diffEntry
  rw [h]

@[simp] theorem addCreated_state (st : ExecState) (p : RelPath) :
    (addCreated st p).state = st.state := rfl

@[simp] theorem addCopy_state (st : ExecState) (p : RelPath) (e : Entry) :
    (addCopy st p e).state = st.state := rfl

@[simp] theorem addSkip_state (st : ExecState) (p : RelPath) (r : String) :
    (addSkip st p r).state = st.state := rfl

@[simp] theorem addWarn_state (st : ExecState) (p : RelPath) (m : String) :
    (addWarn st p m).state = st.state := rfl

@[simp] theorem addFail_state (st : ExecState) (p : RelPath) (m : String) :
    (addFail st p m).state = st.state := rfl

@[simp] theorem setSt_state (st : ExecState) (p : RelPath) (l : Entry) :
    (setSt st p l).state = setEntry st.state p l := rfl

@[simp] theorem setSt_report (st : ExecState) (p : RelPath) (l : Entry) :
    (setSt st p l).report = st.report := rfl

@[simp] theorem addCreated_report (st : ExecState) (p : RelPath) :
    (addCreated st p).report =
      st.report.append ⟨[p], [], [], [], []⟩ := by
  simp [addCreated, ChangeReport.append]

@[simp] theorem addCopy_report (st : ExecState) (p : RelPath) (e : Entry) :
    (addCopy st p e).report =
      st.report.append ⟨[], [(p, e)], [], [], []⟩ := by
  simp [addCopy, ChangeReport.append]

@[simp] theorem addSkip_report (st : ExecState) (p : RelPath) (r : String) :
    (addSkip st p r).report =
      st.report.append ⟨[], [], [(p, r)], [], []⟩ := by
  simp [addSkip, ChangeReport.append]

@[simp] theorem addWarn_report (st : ExecState) (p : RelPath) (m : String) :
    (addWarn st p m).report =
      st.report.append ⟨[], [], [], [(p, m)], []⟩ := by
  simp [addWarn, ChangeReport.append]

@[simp] theorem addFail_report (st : ExecState) (p : RelPath) (m : String) :
    (addFail st p m).report =
      st.report.append ⟨[], [], [], [], [(p, m)]⟩ := by
  simp [addFail, ChangeReport.append]

@[simp] theorem recordDry_state (st : ExecState) (op : Operation) :
    (recordDry st op).state = st.state := by
  cases op <;> rfl

theorem execOp_state_frame (pol : TransferPolicy) (cp : CopyFn)
    (st : ExecState) (op : Operation) (q : RelPath) (hq : q ≠ op.path) :
    lookupEntry (execOp pol cp st op).1.state q = lookupEntry st.state q := by
  unfold execOp
  by_cases hd : pol.dry_run
  · simp [hd]
  · simp only [hd, if_false, Bool.false_eq_true]
    cases op with
    | createContainer p =>
      cases hL : lookupEntry st.state p with
      | some f => simp [hL]
      | none =>
        simp only [Operation.path] at hq
        simp [hL, lookup_setEntry_ne _ _ _ _ hq]
    | skipOp p r => simp
    | copyLeaf p e =>
      simp only [Operation.path] at hq
      have hdo : lookupEntry (doCopy pol cp st p e).1.state q
          = lookupEntry st.state q := by
        unfold doCopy
        cases hcp : cp p e with
        | ioFailure msg =>
          by_cases hi : pol.ignore_err <;> simp [hi]
        | landed sz cs =>
          by_cases hv : verified pol e ⟨.leaf, sz, cs⟩ <;>
            simp [hv, lookup_setEntry_ne _ _ _ _ hq]
      cases hL : lookupEntry st.state p with
      | some f =>
        by_cases ho : pol.overwrite
        · simpa [hL, ho] using hdo
        · by_cases hi : pol.ignore_err <;> simp [hL, ho, hi]
      | none => simpa [hL] using hdo

@[simp] theorem pathsOf_nil : pathsOf [] = [] := rfl

@[simp] theorem pathsOf_cons (op : Operation) (ops : List Operation) :
    pathsOf (op :: ops) = op.path :: pathsOf ops := rfl

@[simp] theorem append_created (a b : ChangeReport) :
    (a.append b).created = a.created ++ b.created := rfl

@[simp] theorem append_copies (a b : ChangeReport) :
    (a.append b).copies = a.copies ++ b.copies := rfl

@[simp] theorem append_skips (a b : ChangeReport) :
    (a.append b).skips = a.skips ++ b.skips := rfl

@[simp] theorem append_warnings (a b : ChangeReport) :
    (a.append b).warnings = a.warnings ++ b.warnings := rfl

@[simp] theorem append_failures (a b : ChangeReport) :
    (a.append b).failures = a.failures ++ b.failures := rfl

theorem execute_cons (pol : TransferPolicy) (cp : CopyFn) (op : Operation)
    (rest : List Operation) (st : ExecState) :
    execute pol cp (op :: rest) st =
      match execOp pol cp st op with
      | (st', none) => execute pol cp rest st'
      | (st', some e) => (st', some e) := rfl

theorem doCopy_report_ext (pol : TransferPolicy) (cp : CopyFn)
    (st : ExecState) (p : RelPath) (e : Entry) :
    ∃ d, (doCopy pol cp st p e).1.report = st.report.append d ∧
      ∀ x ∈ reportPaths d, x = p := by
  unfold doCopy
  cases hcp : cp p e with
  | ioFailure msg =>
    by_cases hi : pol.ignore_err
    · exact ⟨⟨[], [], [], [(p, msg)], []⟩, by simp [hi],
        by simp [reportPaths]⟩
    · exact ⟨⟨[], [], [], [], [(p, msg)]⟩, by simp [hi],
        by simp [reportPaths]⟩
  | landed sz cs =>
    by_cases hv : verified pol e ⟨.leaf, sz, cs⟩
    · exact ⟨⟨[], [(p, e)], [], [], []⟩, by simp [hv],
        by simp [reportPaths]⟩
    · exact ⟨⟨[], [], [], [], [(p, "IntegrityError")]⟩, by simp [hv],
        by simp [reportPaths]⟩

theorem execOp_report_ext (pol : TransferPolicy) (cp : CopyFn)
    (st : ExecState) (op : Operation) :
    ∃ d, (execOp pol cp st op).1.report = st.report.append d ∧
      ∀ x ∈ reportPaths d, x = op.path := by
  unfold execOp
  by_cases hd : pol.dry_run
  · simp only [hd, if_true]
    cases op with
    | createContainer p =>
      exact ⟨⟨[p], [], [], [], []⟩, by simp [recordDry],
        by simp [reportPaths, Operation.path]⟩
    | copyLeaf p e =>
      exact ⟨⟨[], [(p, e)], [], [], []⟩, by simp [recordDry],
        by simp [reportPaths, Operation.path]⟩
    | skipOp p r =>
      exact ⟨⟨[], [], [(p, r)], [], []⟩, by simp [recordDry],
        by simp [reportPaths, Operation.path]⟩
  · simp only [hd, if_false, Bool.false_eq_true]
    cases op with
    | createContainer p =>
      cases hL : lookupEntry st.state p with
      | some f =>
        exact ⟨ChangeReport.empty, by simp [hL, ChangeReport.append_empty],
          by simp [reportPaths, ChangeReport.empty]⟩
      | none =>
        exact ⟨⟨[p], [], [], [], []⟩, by simp [hL],
          by simp [reportPaths, Operation.path]⟩
    | skipOp p r =>
      exact ⟨⟨[], [], [(p, r)], [], []⟩, by simp,
        by simp [reportPaths, Operation.path]⟩
    | copyLeaf p e =>
      have hdo := doCopy_report_ext pol cp st p e
      cases hL : lookupEntry st.state p with
      | some f =>
        by_cases ho : pol.overwrite
        · rcases hdo with ⟨d, h1, h2⟩
          exact ⟨d, by simpa [hL, ho] using h1, h2⟩
        · by_cases hi : pol.ignore_err
          · exact ⟨⟨[], [], [(p, "already exists")], [], []⟩,
              by simp [hL, ho, hi], by simp [reportPaths, Operation.path]⟩
          · exact ⟨⟨[], [], [], [], [(p, "AlreadyExistsError")]⟩,
              by simp [hL, ho, hi], by simp [reportPaths, Operation.path]⟩
      | none =>
        rcases hdo with ⟨d, h1, h2⟩
        exact ⟨d, by simpa [hL] using h1, h2⟩

theorem execute_report_ext (pol : TransferPolicy) (cp : CopyFn) :
    ∀ (ops : List Operation) (st : ExecState),
      ∃ d, (execute pol cp ops st).1.report = st.report.append d ∧
        ∀ x ∈ reportPaths d, x ∈ pathsOf ops := by
  intro ops
  induction ops with
  | nil =>
    intro st
    exact ⟨ChangeReport.empty, (ChangeReport.append_empty _).symm,
      by simp [reportPaths, ChangeReport.empty]⟩
  | cons op rest ih =>
    intro st
    rcases execOp_report_ext pol cp st op with ⟨d1, hd1, hp1⟩
    rcases h1 : execOp pol cp st op with ⟨st1, f1⟩
    rw [h1] at hd1
    cases f1 with
    | none =>
      rcases ih st1 with ⟨d2, hd2, hp2⟩
      refine ⟨d1.append d2, ?_, ?_⟩
      · rw [execute_cons, h1]
        rw [hd2, hd1, ChangeReport.append_assoc]
      · intro x hx
        rcases mem_reportPaths_append.1 hx with h | h
        · rw [hp1 x h]
          simp
        · simp only [pathsOf_cons, List.mem_cons]
          exact Or.inr (hp2 x h)
    | some err =>
      refine ⟨d1, ?_, ?_⟩
      · rw [execute_cons, h1]
        exact hd1
      · intro x hx
        rw [hp1 x hx]
        simp

theorem execute_state_frame (pol : TransferPolicy) (cp : CopyFn) :
    ∀ (ops : List Operation) (st : ExecState) (q : RelPath),
      q ∉ pathsOf ops →
      lookupEntry (execute pol cp ops st).1.state q = lookupEntry st.state q := by
  intro ops
  induction ops with
  | nil => intro st q _; rfl
  | cons op rest ih =>
    intro st q hq
    simp only [pathsOf_cons, List.mem_cons, not_or] at hq
    have h1 := execOp_state_frame pol cp st op q hq.1
    rcases he : execOp pol cp st op with ⟨st1, f1⟩
    rw [he] at h1
    rw [execute_cons, he]
    cases f1 with
    | none =>
      rw [ih st1 q hq.2]
      exact h1
    | some err => exact h1

theorem verified_facts {pol : TransferPolicy} {e l : Entry}
    (h : verified pol e l = true) :
    l.size = e.size ∧ (pol.verify_checksum = true → l.checksum = e.checksum) := by
  simp only [verified, Bool.and_eq_true, Bool.or_eq_true, Bool.not_eq_true',
    decide_eq_true_eq] at h
  refine ⟨h.1, fun hv => ?_⟩
  rcases h.2 with h2 | h2
  · rw [hv] at h2; cases h2
  · exact h2

/-- Verification record invariant: a leaf entry at `p` in the target domain
matches the source entry `e` in size and, when verification is requested,
in checksum. -/
def copyRecOk (pol : TransferPolicy) (d : Domain) (p : RelPath)
    (e : Entry) : Prop :=
  ∃ t, lookupEntry d p = some t ∧ t.kind = .leaf ∧ t.size = e.size ∧
    (pol.verify_checksum = true → t.checksum = e.checksum)

theorem copyRecOk_set_ne {pol : TransferPolicy} {d : Domain} {p p0 : RelPath}
    {e l : Entry} (h : copyRecOk pol d p e) (hne : p ≠ p0) :
    copyRecOk pol (setEntry d p0 l) p e := by
  rcases h with ⟨t, h1, h2⟩
  exact ⟨t, by rw [lookup_setEntry_ne _ _ _ _ hne]; exact h1, h2⟩

theorem append_append_eq_self {α : Type _} {a b c : List α}
    (h : a ++ b ++ c = a) : b = [] ∧ c = [] := by
  have hl := congrArg List.length h
  simp only [List.length_append] at hl
  constructor
  · exact List.length_eq_zero.1 (by omega)
  · exact List.length_eq_zero.1 (by omega)

/-- What a successfully executed operation guarantees about the final
target domain, relative to the domain `st0` it started from. -/
def opPost (pol : TransferPolicy) (st0 fin : Domain) : Operation → Prop
  | .createContainer p => lookupEntry st0 p = none →
      lookupEntry fin p = some ⟨.container, 0, ""⟩
  | .copyLeaf p e => ∃ t, lookupEntry fin p = some t ∧ t.kind = .leaf ∧
      verified pol e t = true
  | .skipOp _ _ => False

theorem opPost_congr {pol : TransferPolicy} {st0 st0' fin : Domain}
    {op : Operation} (h : opPost pol st0' fin op)
    (hl : lookupEntry st0 op.path = lookupEntry st0' op.path) :
    opPost pol st0 fin op := by
  cases op with
  | createContainer p =>
    intro h0
    simp only [Operation.path] at hl
    exact h (by rw [← hl]; exact h0)
  | copyLeaf p e => exact h
  | skipOp p r => exact h

theorem doCopy_copies_inv (pol : TransferPolicy) (cp : CopyFn)
    (st : ExecState) (p0 : RelPath) (e0 : Entry) (st1 : ExecState)
    (f1 : Option SyncError) (he : doCopy pol cp st p0 e0 = (st1, f1))
    (P : RelPath → Prop) (hp0 : P p0)
    (hinv : ∀ p' e', (p', e') ∈ st.report.copies →
      (p' ≠ p0 ∧ P p') ∧ copyRecOk pol st.state p' e') :
    ∀ p' e', (p', e') ∈ st1.report.copies →
      P p' ∧ copyRecOk pol st1.state p' e' := by
  simp only [doCopy] at he
  cases hcp : cp p0 e0 with
  | ioFailure msg =>
    rw [hcp] at he
    dsimp only at he
    by_cases hi : pol.ignore_err
    · rw [if_pos hi] at he
      injection he with h1 h2
      subst h1
      intro p' e' hp'
      simp only [addWarn_report, append_copies] at hp'
      simp only [List.append_nil] at hp'
      rcases hinv p' e' hp' with ⟨⟨hne, hP⟩, hok⟩
      exact ⟨hP, hok⟩
    · rw [if_neg hi] at he
      injection he with h1 h2
      subst h1
      intro p' e' hp'
      simp only [addFail_report, append_copies] at hp'
      simp only [List.append_nil] at hp'
      rcases hinv p' e' hp' with ⟨⟨hne, hP⟩, hok⟩
      exact ⟨hP, hok⟩
  | landed sz cs =>
    rw [hcp] at he
    dsimp only at he
    by_cases hv : verified pol e0 ⟨.leaf, sz, cs⟩
    · rw [if_pos hv] at he
      injection he with h1 h2
      subst h1
      intro p' e' hp'
      simp only [addCopy_report, setSt_report, append_copies,
        List.mem_append, List.mem_singleton, Prod.mk.injEq] at hp'
      rcases hp' with hp' | ⟨rfl, rfl⟩
      · rcases hinv p' e' hp' with ⟨⟨hne, hP⟩, hok⟩
        exact ⟨hP, copyRecOk_set_ne hok hne⟩
      · refine ⟨hp0, ⟨.leaf, sz, cs⟩, ?_, rfl,
          (verified_facts hv).1, (verified_facts hv).2⟩
        simp only [addCopy_state, setSt_state]
        exact lookup_setEntry_self _ _ _
    · rw [if_neg hv] at he
      injection he with h1 h2
      subst h1
      intro p' e' hp'
      simp only [addFail_report, setSt_report, append_copies] at hp'
      simp only [List.append_nil] at hp'
      rcases hinv p' e' hp' with ⟨⟨hne, hP⟩, hok⟩
      refine ⟨hP, ?_⟩
      simp only [addFail_state, setSt_state]
      exact copyRecOk_set_ne hok hne

theorem execute_copies_verified (pol : TransferPolicy) (cp : CopyFn)
    (hdry : pol.dry_run = false) :
    ∀ (ops : List Operation) (st : ExecState),
      (pathsOf ops).Nodup →
      (∀ p' e', (p', e') ∈ st.report.copies →
        p' ∉ pathsOf ops ∧ copyRecOk pol st.state p' e') →
      ∀ p e, (p, e) ∈ (execute pol cp ops st).1.report.copies →
        copyRecOk pol (execute pol cp ops st).1.state p e := by
  intro ops
  induction ops with
  | nil =>
    intro st _ hinv p e hpe
    exact (hinv p e hpe).2
  | cons op rest ih =>
    intro st hnd hinv p e hpe
    simp only [pathsOf_cons, List.nodup_cons] at hnd
    rcases he : execOp pol cp st op with ⟨st1, f1⟩
    rw [execute_cons, he] at hpe ⊢
    have hinv1 : ∀ p' e', (p', e') ∈ st1.report.copies →
        p' ∉ pathsOf rest ∧ copyRecOk pol st1.state p' e' := by
      cases op with
      | createContainer p0 =>
        simp only [execOp, hdry, Bool.false_eq_true, if_false] at he
        cases hL : lookupEntry st.state p0 with
        | some f =>
          rw [hL] at he
          injection he with h1 h2
          subst h1
          intro p' e' hp'
          rcases hinv p' e' hp' with ⟨hn, hok⟩
          simp only [pathsOf_cons, Operation.path, List.mem_cons,
            not_or] at hn
          exact ⟨hn.2, hok⟩
        | none =>
          rw [hL] at he
          injection he with h1 h2
          subst h1
          intro p' e' hp'
          simp only [addCreated_report, setSt_report, append_copies] at hp'
          simp only [List.append_nil] at hp'
          rcases hinv p' e' hp' with ⟨hn, hok⟩
          simp only [pathsOf_cons, Operation.path, List.mem_cons,
            not_or] at hn
          refine ⟨hn.2, ?_⟩
          simp only [addCreated_state, setSt_state]
          exact copyRecOk_set_ne hok hn.1
      | skipOp p0 r0 =>
        simp only [execOp, hdry, Bool.false_eq_true, if_false] at he
        injection he with h1 h2
        subst h1
        intro p' e' hp'
        simp only [addSkip_report, append_copies] at hp'
        simp only [List.append_nil] at hp'
        rcases hinv p' e' hp' with ⟨hn, hok⟩
        simp only [pathsOf_cons, Operation.path, List.mem_cons, not_or] at hn
        exact ⟨hn.2, hok⟩
      | copyLeaf p0 e0 =>
        simp only [execOp, hdry, Bool.false_eq_true, if_false] at he
        have hinv' : ∀ p' e', (p', e') ∈ st.report.copies →
            (p' ≠ p0 ∧ p' ∉ pathsOf rest) ∧ copyRecOk pol st.state p' e' := by
          intro p' e' hp'
          rcases hinv p' e' hp' with ⟨hn, hok⟩
          simp only [pathsOf_cons, Operation.path, List.mem_cons,
            not_or] at hn
          exact ⟨hn, hok⟩
        have hn0 : p0 ∉ pathsOf rest := by
          simpa only [Operation.path] using hnd.1
        cases hL : lookupEntry st.state p0 with
        | some f =>
          rw [hL] at he
          by_cases ho : pol.overwrite
          · rw [if_pos ho] at he
            exact doCopy_copies_inv pol cp st p0 e0 st1 f1 he _ hn0 hinv'
          · rw [if_neg ho] at he
            by_cases hi : pol.ignore_err
            · rw [if_pos hi] at he
              injection he with h1 h2
              subst h1
              intro p' e' hp'
              simp only [addSkip_report, append_copies] at hp'
              simp only [List.append_nil] at hp'
              rcases hinv' p' e' hp' with ⟨⟨hne, hP⟩, hok⟩
              exact ⟨hP, hok⟩
            · rw [if_neg hi] at he
              injection he with h1 h2
              subst h1
              intro p' e' hp'
              simp only [addFail_report, append_copies] at hp'
              simp only [List.append_nil] at hp'
              rcases hinv' p' e' hp' with ⟨⟨hne, hP⟩, hok⟩
              exact ⟨hP, hok⟩
        | none =>
          rw [hL] at he
          exact doCopy_copies_inv pol cp st p0 e0 st1 f1 he _ hn0 hinv'
    cases f1 with
    | none => exact ih st1 hnd.2 hinv1 p e hpe
    | some err => exact (hinv1 p e hpe).2

theorem doCopy_success_post (pol : TransferPolicy) (cp : CopyFn)
    (st : ExecState) (p0 : RelPath) (e0 : Entry) (st1 : ExecState)
    (he : doCopy pol cp st p0 e0 = (st1, none))
    (hwn1 : st1.report.warnings = st.report.warnings) :
    ∃ t, lookupEntry st1.state p0 = some t ∧ t.kind = .leaf ∧
      verified pol e0 t = true := by
  simp only [doCopy] at he
  cases hcp : cp p0 e0 with
  | ioFailure msg =>
    rw [hcp] at he
    dsimp only at he
    by_cases hi : pol.ignore_err
    · rw [if_pos hi] at he
      injection he with h1 h2
      subst h1
      exfalso
      simp only [addWarn_report, append_warnings] at hwn1
      have := congrArg List.length hwn1
      simp only [List.length_append, List.length_cons, List.length_nil] at this
      omega
    · rw [if_neg hi] at he
      injection he with h1 h2
      cases h2
  | landed sz cs =>
    rw [hcp] at he
    dsimp only at he
    by_cases hv : verified pol e0 ⟨.leaf, sz, cs⟩
    · rw [if_pos hv] at he
      injection he with h1 h2
      subst h1
      refine ⟨⟨.leaf, sz, cs⟩, ?_, rfl, hv⟩
      simp only [addCopy_state, setSt_state]
      exact lookup_setEntry_self _ _ _
    · rw [if_neg hv] at he
      injection he with h1 h2
      cases h2

theorem execute_success_post (pol : TransferPolicy) (cp : CopyFn)
    (hdry : pol.dry_run = false) :
    ∀ (ops : List Operation) (st fin : ExecState),
      (pathsOf ops).Nodup →
      execute pol cp ops st = (fin, none) →
      fin.report.skips = st.report.skips →
      fin.report.warnings = st.report.warnings →
      ∀ op ∈ ops, opPost pol st.state fin.state op := by
  intro ops
  induction ops with
  | nil => intro st fin _ _ _ _ op hop; cases hop
  | cons op rest ih =>
    intro st fin hnd hexec hsk hwn
    simp only [pathsOf_cons, List.nodup_cons] at hnd
    rcases he : execOp pol cp st op with ⟨st1, f1⟩
    rw [execute_cons, he] at hexec
    cases f1 with
    | some err =>
      dsimp only at hexec
      injection hexec with h1 h2
      cases h2
    | none =>
      dsimp only at hexec
      rcases execOp_report_ext pol cp st op with ⟨d1, hd1, hp1⟩
      rw [he] at hd1
      dsimp only at hd1
      rcases execute_report_ext pol cp rest st1 with ⟨d2, hd2, hp2⟩
      rw [hexec] at hd2
      dsimp only at hd2
      have hexps : fin.report.skips =
          st.report.skips ++ d1.skips ++ d2.skips := by
        rw [hd2, append_skips, hd1, append_skips]
      have hskdec : d1.skips = [] ∧ d2.skips = [] := by
        apply @append_append_eq_self _ st.report.skips d1.skips d2.skips
        rw [← hexps]
        exact hsk
      have hexpw : fin.report.warnings =
          st.report.warnings ++ d1.warnings ++ d2.warnings := by
        rw [hd2, append_warnings, hd1, append_warnings]
      have hwndec : d1.warnings = [] ∧ d2.warnings = [] := by
        apply @append_append_eq_self _ st.report.warnings d1.warnings d2.warnings
        rw [← hexpw]
        exact hwn
      have hsk1 : st1.report.skips = st.report.skips := by
        rw [hd1, append_skips, hskdec.1, List.append_nil]
      have hwn1 : st1.report.warnings = st.report.warnings := by
        rw [hd1, append_warnings, hwndec.1, List.append_nil]
      have hskf : fin.report.skips = st1.report.skips := by
        rw [hd2, append_skips, hskdec.2, List.append_nil]
      have hwnf : fin.report.warnings = st1.report.warnings := by
        rw [hd2, append_warnings, hwndec.2, List.append_nil]
      have hfr : ∀ q, q ∉ pathsOf rest →
          lookupEntry fin.state q = lookupEntry st1.state q := by
        intro q hq
        have hframe := execute_state_frame pol cp rest st1 q hq
        rw [hexec] at hframe
        exact hframe
      intro op' hop'
      rcases List.mem_cons.1 hop' with rfl | hop''
      · -- the head operation itself
        cases op' with
        | skipOp p0 r0 =>
          simp only [execOp, hdry, Bool.false_eq_true, if_false] at he
          injection he with h1 h2
          subst h1
          exfalso
          simp only [addSkip_report, append_skips] at hsk1
          have := congrArg List.length hsk1
          simp only [List.length_append, List.length_cons,
            List.length_nil] at this
          omega
        | createContainer p0 =>
          intro hL0
          simp only [execOp, hdry, Bool.false_eq_true, if_false] at he
          rw [hL0] at he
          injection he with h1 h2
          subst h1
          rw [hfr p0 (by simpa only [Operation.path] using hnd.1)]
          simp only [addCreated_state, setSt_state]
          exact lookup_setEntry_self _ _ _
        | copyLeaf p0 e0 =>
          have hn0 : p0 ∉ pathsOf rest := by
            simpa only [Operation.path] using hnd.1
          simp only [execOp, hdry, Bool.false_eq_true, if_false] at he
          have hmain : ∃ t, lookupEntry st1.state p0 = some t ∧
              t.kind = .leaf ∧ verified pol e0 t = true := by
            cases hL : lookupEntry st.state p0 with
            | some f =>
              rw [hL] at he
              by_cases ho : pol.overwrite
              · rw [if_pos ho] at he
                exact doCopy_success_post pol cp st p0 e0 st1 he hwn1
              · rw [if_neg ho] at he
                by_cases hi : pol.ignore_err
                · rw [if_pos hi] at he
                  injection he with h1 h2
                  subst h1
                  exfalso
                  simp only [addSkip_report, append_skips] at hsk1
                  have := congrArg List.length hsk1
                  simp only [List.length_append, List.length_cons,
                    List.length_nil] at this
                  omega
                · rw [if_neg hi] at he
                  injection he with h1 h2
                  cases h2
            | none =>
              rw [hL] at he
              exact doCopy_success_post pol cp st p0 e0 st1 he hwn1
          rcases hmain with ⟨t, h1, h2, h3⟩
          exact ⟨t, by rw [hfr p0 hn0]; exact h1, h2, h3⟩
      · -- an operation of the tail
        have hpost := ih st1 fin hnd.2 hexec hskf hwnf op' hop''
        have hmem : op'.path ∈ pathsOf rest :=
          List.mem_map_of_mem Operation.path hop''
        have hne : op'.path ≠ op.path := fun heq => hnd.1 (heq ▸ hmem)
        have hfr1 := execOp_state_frame pol cp st op op'.path hne
        rw [he] at hfr1
        exact opPost_congr hpost hfr1.symm

theorem lookup_walkEntries (d : Domain) (n : Option Nat) (p : RelPath)
    (hp : depthOk n p = true) :
    lookupEntry (walkEntries d n) p = lookupEntry d p := by
  induction d with
  | nil => rfl
  | cons qf rest ih =>
    obtain ⟨q, f⟩ := qf
    by_cases hq : q = p
    · subst hq
      simp [walkEntries, List.filter_cons, hp, lookupEntry]
    · by_cases hd : depthOk n q = true
      · simpa [walkEntries, List.filter_cons, hd, lookupEntry, hq] using ih
      · simp only [walkEntries, List.filter_cons] at ih ⊢
        rw [if_neg (by simp [hd])]
        rw [ih]
        simp [lookupEntry, hq]

theorem execute_dry (pol : TransferPolicy) (cp : CopyFn)
    (hdry : pol.dry_run = true) :
    ∀ (ops : List Operation) (st : ExecState),
      execute pol cp ops st = (ops.foldl recordDry st, none) := by
  intro ops
  induction ops with
  | nil => intro st; rfl
  | cons op rest ih =>
    intro st
    rw [execute_cons]
    have hstep : execOp pol cp st op = (recordDry st op, none) := by
      simp [execOp, hdry]
    rw [hstep]
    dsimp only
    rw [ih]
    rfl

theorem foldl_recordDry_state :
    ∀ (ops : List Operation) (st : ExecState),
      (ops.foldl recordDry st).state = st.state := by
  intro ops
  induction ops with
  | nil => intro st; rfl
  | cons op rest ih =>
    intro st
    rw [List.foldl_cons, ih, recordDry_state]

theorem diffOps_at_path {pol : TransferPolicy} {src tgt : Domain}
    {op : Operation} (hn : (src.map Prod.fst).Nodup)
    (hop : op ∈ diffOps pol src tgt) {p : RelPath} {e : Entry}
    (hpe : (p, e) ∈ src) (hpath : op.path = p) :
    depthOk pol.max_depth p = true ∧ diffEntry pol src tgt (p, e) = some op := by
  rcases mem_diffOps.1 hop with ⟨pe', hmem', hdep', hde'⟩
  obtain ⟨p', e'⟩ := pe'
  have hp' : p' = p := by
    have := diffEntry_path hde'
    dsimp at this
    rw [← this, hpath]
  subst hp'
  have he' : e' = e := key_unique hn hmem' hpe
  subst he'
  exact ⟨hdep', hde'⟩

theorem no_op_at_path {pol : TransferPolicy} {src tgt : Domain} {p : RelPath}
    {e : Entry} (hn : (src.map Prod.fst).Nodup) (hpe : (p, e) ∈ src)
    (hnone : diffEntry pol src tgt (p, e) = none) :
    ∀ op ∈ diffOps pol src tgt, op.path ≠ p := by
  intro op hop hpath
  rcases diffOps_at_path hn hop hpe hpath with ⟨_, hsome⟩
  rw [hnone] at hsome
  cases hsome

theorem not_mem_diff_paths_of_none {pol : TransferPolicy} {src tgt : Domain}
    {p : RelPath} {e : Entry} (hn : (src.map Prod.fst).Nodup)
    (hpe : (p, e) ∈ src)
    (hnone : diffEntry pol src tgt (p, e) = none) :
    p ∉ pathsOf (diffOps pol src tgt) := by
  intro hp
  simp only [pathsOf, List.mem_map] at hp
  rcases hp with ⟨op, hop, hpath⟩
  exact no_op_at_path hn hpe hnone op hop hpath

theorem skips_path_mem {d : ChangeReport} {p : RelPath} {reason : String}
    (h : (p, reason) ∈ d.skips) : p ∈ reportPaths d := by
  have hm : p ∈ d.skips.map Prod.fst := List.mem_map_of_mem Prod.fst h
  unfold reportPaths
  exact List.mem_append.2 (Or.inl (List.mem_append.2 (Or.inl
    (List.mem_append.2 (Or.inr hm)))))

theorem copies_path_mem {d : ChangeReport} {p : RelPath} {e : Entry}
    (h : (p, e) ∈ d.copies) : p ∈ reportPaths d := by
  have hm : p ∈ d.copies.map Prod.fst := List.mem_map_of_mem Prod.fst h
  unfold reportPaths
  exact List.mem_append.2 (Or.inl (List.mem_append.2 (Or.inl
    (List.mem_append.2 (Or.inl (List.mem_append.2 (Or.inr hm)))))))

theorem leafDiffers_false_of_verified {pol : TransferPolicy} {e t : Entry}
    (h : verified pol e t = true) : leafDiffers pol e t = false := by
  rcases verified_facts h with ⟨h1, h2⟩
  unfold leafDiffers
  cases hv : pol.verify_checksum
  · simp [h1]
  · simp [h1, h2 hv]

/-- C2: every target entry whose relative_path is not present in the source
tree is still present and unmodified after a synchronization run, for every
TransferPolicy and every copy primitive; the engine never emits a delete
(the Operation type has no delete variant) and never touches target-only
entries. -/
theorem sync_never_deletes (pol : TransferPolicy) (cp : CopyFn)
    (src tgt : Domain) (p : RelPath) (e : Entry)
    (hp : p ∉ src.map Prod.fst) (he : lookupEntry tgt p = some e) :
    lookupEntry (sync pol cp src tgt).1.state p = some e := by
  unfold sync
  rw [execute_state_frame pol cp (diffOps pol src tgt)
    ⟨ChangeReport.empty, tgt⟩ p (not_mem_diff_paths hp)]
  exact he

theorem sync_never_deletes_witness :
    (["b.txt"] : RelPath) ∉
      (([(["a"], (⟨.container, 0, ""⟩ : Entry))] : Domain).map Prod.fst) ∧
    lookupEntry [(["b.txt"], ⟨.leaf, 5, "x5"⟩)] ["b.txt"] =
      some ⟨.leaf, 5, "x5"⟩ ∧
    lookupEntry
      (sync ⟨true, false, none, false, false, true⟩ perfectCopy
        [(["a"], ⟨.container, 0, ""⟩)]
        [(["b.txt"], ⟨.leaf, 5, "x5"⟩)]).1.state ["b.txt"] =
      some ⟨.leaf, 5, "x5"⟩ :=
  ⟨by decide, by decide,
    sync_never_deletes ⟨true, false, none, false, false, true⟩ perfectCopy
      [(["a"], ⟨.container, 0, ""⟩)] [(["b.txt"], ⟨.leaf, 5, "x5"⟩)]
      ["b.txt"] ⟨.leaf, 5, "x5"⟩ (by decide) (by decide)⟩

/-- C7: with max_depth = some N, every operation the Diff Engine emits
references a relative_path of at most N segments, while a container entry at
exactly depth N is still turned into a CreateContainer operation when it is
non-empty below (it has a descendant in the source). -/
theorem diff_depth_bound (pol : TransferPolicy) (src tgt : Domain) (N : Nat)
    (hN : pol.max_depth = some N) :
    (∀ op ∈ diffOps pol src tgt, op.path.length ≤ N) ∧
    (∀ p e, (p, e) ∈ src → p.length = N → e.kind = .container →
      lookupEntry tgt p = none → hasDescendant src p = true →
      Operation.createContainer p ∈ diffOps pol src tgt) := by
  constructor
  · intro op hop
    have hdep := (path_mem_of_mem_diffOps hop).2
    rw [hN] at hdep
    simpa [depthOk] using hdep
  · intro p e hpe hlen hkind hL hdesc
    apply mem_diffOps.2
    refine ⟨(p, e), hpe, ?_, ?_⟩
    · simp [depthOk, hN, hlen]
    · unfold diffEntry
      dsimp only
      rw [hL, hkind]
      dsimp only
      simp [hdesc]

theorem diff_depth_bound_witness :
    ((⟨true, false, some 1, false, false, true⟩ :
        TransferPolicy).max_depth = some 1) ∧
    Operation.createContainer ["a"] ∈
      diffOps ⟨true, false, some 1, false, false, true⟩
        [(["a"], ⟨.container, 0, ""⟩), (["a","b"], ⟨.leaf, 3, "c3"⟩)] [] :=
  ⟨rfl, (diff_depth_bound ⟨true, false, some 1, false, false, true⟩
      [(["a"], ⟨.container, 0, ""⟩), (["a","b"], ⟨.leaf, 3, "c3"⟩)] [] 1
      rfl).2
    ["a"] ⟨.container, 0, ""⟩ (by decide) (by decide) rfl (by decide)
    (by decide)⟩

/-- C9: with dry_run set, execute appends every operation of the operation
list to the ChangeReport in order (the fold of recordDry) without performing
any of them: the target domain is unchanged, no error is raised, and the
result does not depend on the copy primitive cp at all, so no I/O happens
beyond the tree probing the Diff Engine already performed. -/
theorem execute_dry_run (pol : TransferPolicy) (cp : CopyFn)
    (ops : List Operation) (st : ExecState) (hdry : pol.dry_run = true) :
    execute pol cp ops st = (ops.foldl recordDry st, none) ∧
    (ops.foldl recordDry st).state = st.state :=
  ⟨execute_dry pol cp hdry ops st, foldl_recordDry_state ops st⟩

theorem execute_dry_run_witness :
    execute ⟨false, false, none, false, true, true⟩ perfectCopy
      [.createContainer ["a"], .copyLeaf ["a","x"] ⟨.leaf, 1, "c1"⟩,
        .skipOp ["b"] "kind mismatch"]
      ⟨ChangeReport.empty, [(["b"], ⟨.container, 0, ""⟩)]⟩ =
    (⟨⟨[["a"]], [(["a","x"], ⟨.leaf, 1, "c1"⟩)], [(["b"], "kind mismatch")],
        [], []⟩, [(["b"], ⟨.container, 0, ""⟩)]⟩, none) := by
  have h := (execute_dry_run ⟨false, false, none, false, true, true⟩
    perfectCopy
    [.createContainer ["a"], .copyLeaf ["a","x"] ⟨.leaf, 1, "c1"⟩,
      .skipOp ["b"] "kind mismatch"]
    ⟨ChangeReport.empty, [(["b"], ⟨.container, 0, ""⟩)]⟩ rfl).1
  rw [h]
  rfl

/-- C10: upload creates a missing final destination collection on the fly,
but when more than one trailing level of the destination path is missing
(a nested new collection) no collection is created and the call fails with
CAT_UNKNOWN_COLLECTION naming the missing parent collection. -/
theorem upload_dest_collection (existing : List RelPath) (dest : RelPath)
    (h1 : dest ∉ existing) :
    (dest.dropLast ∈ existing →
      ensureDestCollection existing dest =
        .ok (existing ++ [dest])) ∧
    (dest.dropLast ∉ existing →
      ensureDestCollection existing dest =
        .error (.catUnknownCollection dest.dropLast)) := by
  constructor
  · intro h2
    unfold ensureDestCollection
    rw [if_neg h1, if_pos h2]
  · intro h2
    unfold ensureDestCollection
    rw [if_neg h1, if_neg h2]

theorem upload_dest_collection_witness :
    ensureDestCollection [["home"]] ["home", "new_coll"] =
      .ok [["home"], ["home", "new_coll"]] ∧
    ensureDestCollection [["home"]]
        ["home", "new_coll", "new_subcoll", "new"] =
      .error (.catUnknownCollection ["home", "new_coll", "new_subcoll"]) := by
  constructor
  · exact (upload_dest_collection [["home"]] ["home", "new_coll"]
      (by decide)).1 (by decide)
  · exact (upload_dest_collection [["home"]]
      ["home", "new_coll", "new_subcoll", "new"] (by decide)).2 (by decide)

/-- C4: a CopyLeaf that finds its target already existing under
overwrite = false and ignore_err = false records a fatal AlreadyExistsError
and raises: the run stops with that error, no operation after the failing
one is executed (the result is independent of the remaining operations and
the target domain is unchanged), and, with the conflicting leaf the first
copy attempted from an empty report (Scenario C), the ChangeReport shows
zero completed copies. -/
theorem strict_conflict_aborts (pol : TransferPolicy) (cp : CopyFn)
    (rest : List Operation) (r : ChangeReport) (st : Domain) (p : RelPath)
    (e t : Entry) (ho : pol.overwrite = false) (hi : pol.ignore_err = false)
    (hd : pol.dry_run = false) (hL : lookupEntry st p = some t) :
    execute pol cp (.copyLeaf p e :: rest) ⟨r, st⟩ =
      (⟨{ r with failures := r.failures ++ [(p, "AlreadyExistsError")] },
          st⟩, some (.alreadyExists p)) ∧
    (sync ⟨false, false, none, false, false, true⟩ perfectCopy
        [(["a"], ⟨.container, 0, ""⟩), (["a","x.txt"], ⟨.leaf, 12, "c12"⟩)]
        [(["a"], ⟨.container, 0, ""⟩),
          (["a","x.txt"], ⟨.leaf, 10, "c10"⟩)]).1.report.copies = [] := by
  constructor
  · rw [execute_cons]
    have hstep : execOp pol cp ⟨r, st⟩ (.copyLeaf p e) =
        (addFail ⟨r, st⟩ p "AlreadyExistsError",
          some (.alreadyExists p)) := by
      simp only [execOp, hd, Bool.false_eq_true, if_false]
      rw [hL]
      dsimp only
      simp only [ho, hi, Bool.false_eq_true, if_false]
    rw [hstep]
    rfl
  · decide

theorem strict_conflict_aborts_witness :
    execute ⟨false, false, none, false, false, true⟩ perfectCopy
      [.copyLeaf ["a","x.txt"] ⟨.leaf, 12, "c12"⟩]
      ⟨ChangeReport.empty, [(["a","x.txt"], ⟨.leaf, 10, "c10"⟩)]⟩ =
    (⟨⟨[], [], [], [], [(["a","x.txt"], "AlreadyExistsError")]⟩,
        [(["a","x.txt"], ⟨.leaf, 10, "c10"⟩)]⟩,
      some (.alreadyExists ["a","x.txt"])) := by
  have h := (strict_conflict_aborts ⟨false, false, none, false, false, true⟩
    perfectCopy [] ChangeReport.empty
    [(["a","x.txt"], ⟨.leaf, 10, "c10"⟩)] ["a","x.txt"]
    ⟨.leaf, 12, "c12"⟩ ⟨.leaf, 10, "c10"⟩ rfl rfl rfl (by decide)).1
  rw [h]
  rfl

/-- C8: whenever a CopyLeaf actually performs its copy (the target path is
absent, or the policy overwrites an existing target), a post-copy
verification mismatch raises IntegrityError for every combination of
overwrite and ignore_err (the policy is arbitrary here, and the
already-existing-target overwrite path is covered): the failure is recorded
as a failure, no warning is recorded, and no operation after the failing
one is executed; by contrast a transport failure under ignore_err = true is
downgraded to a recorded warning and execution continues with the
remaining operations. -/
theorem integrity_always_fatal (pol : TransferPolicy) (cp : CopyFn)
    (rest : List Operation) (r : ChangeReport) (st : Domain) (p : RelPath)
    (e : Entry) (sz : Nat) (cs : String) (msg : String)
    (hd : pol.dry_run = false)
    (hL : lookupEntry st p = none ∨ pol.overwrite = true) :
    (cp p e = .landed sz cs → verified pol e ⟨.leaf, sz, cs⟩ = false →
      execute pol cp (.copyLeaf p e :: rest) ⟨r, st⟩ =
        (⟨{ r with failures := r.failures ++ [(p, "IntegrityError")] },
            setEntry st p ⟨.leaf, sz, cs⟩⟩, some (.integrity p))) ∧
    (cp p e = .ioFailure msg → pol.ignore_err = true →
      execute pol cp (.copyLeaf p e :: rest) ⟨r, st⟩ =
        execute pol cp rest
          ⟨{ r with warnings := r.warnings ++ [(p, msg)] }, st⟩) := by
  have hstep : execOp pol cp ⟨r, st⟩ (.copyLeaf p e) =
      doCopy pol cp ⟨r, st⟩ p e := by
    simp only [execOp, hd, Bool.false_eq_true, if_false]
    rcases hL with hn | ho
    · rw [hn]
    · cases hE : lookupEntry st p with
      | none => rfl
      | some f =>
        dsimp only
        rw [if_pos ho]
  constructor
  · intro hcp hv
    rw [execute_cons]
    have hstep' : execOp pol cp ⟨r, st⟩ (.copyLeaf p e) =
        (addFail (setSt ⟨r, st⟩ p ⟨.leaf, sz, cs⟩) p "IntegrityError",
          some (.integrity p)) := by
      rw [hstep]
      simp only [doCopy]
      rw [hcp]
      dsimp only
      rw [hv]
      simp
    rw [hstep']
    rfl
  · intro hcp hi
    rw [execute_cons]
    have hstep' : execOp pol cp ⟨r, st⟩ (.copyLeaf p e) =
        (addWarn ⟨r, st⟩ p msg, none) := by
      rw [hstep]
      simp only [doCopy]
      rw [hcp]
      dsimp only
      rw [hi]
      simp
    rw [hstep']
    rfl

theorem integrity_always_fatal_witness :
    execute ⟨true, true, none, false, false, true⟩
      (fun _ _ => .landed 5 "bad")
      [.copyLeaf ["f.txt"] ⟨.leaf, 5, "good"⟩]
      ⟨ChangeReport.empty, [(["f.txt"], ⟨.leaf, 9, "old"⟩)]⟩ =
    (⟨⟨[], [], [], [], [(["f.txt"], "IntegrityError")]⟩,
        [(["f.txt"], ⟨.leaf, 5, "bad"⟩)]⟩, some (.integrity ["f.txt"])) := by
  have h := (integrity_always_fatal ⟨true, true, none, false, false, true⟩
    (fun _ _ => .landed 5 "bad") [] ChangeReport.empty
    [(["f.txt"], ⟨.leaf, 9, "old"⟩)] ["f.txt"]
    ⟨.leaf, 5, "good"⟩ 5 "bad" "" rfl (Or.inr rfl)).1 rfl (by decide)
  rw [h]
  rfl

/-- C5: for a relative_path that is a LEAF in both source and target, with
equal sizes and, when checksum verification is requested, equal checksums,
the Diff Engine emits no operation for that path at all — no CopyLeaf and
no Skip — and a synchronization run records neither a skip nor a copy for
it in the ChangeReport. -/
theorem identical_leaf_no_op (pol : TransferPolicy) (cp : CopyFn)
    (src tgt : Domain) (p : RelPath) (e t : Entry)
    (hn : (src.map Prod.fst).Nodup) (hpe : (p, e) ∈ src)
    (hL : lookupEntry tgt p = some t) (hek : e.kind = .leaf)
    (htk : t.kind = .leaf) (hsz : e.size = t.size)
    (hcs : pol.verify_checksum = true → e.checksum = t.checksum) :
    (∀ op ∈ diffOps pol src tgt, op.path ≠ p) ∧
    (∀ reason, (p, reason) ∉ (sync pol cp src tgt).1.report.skips) ∧
    (∀ e', (p, e') ∉ (sync pol cp src tgt).1.report.copies) := by
  have hld : leafDiffers pol e t = false := by
    unfold leafDiffers
    cases hv : pol.verify_checksum
    · simp [hsz]
    · simp [hsz, hcs hv]
  have hnone : diffEntry pol src tgt (p, e) = none := by
    unfold diffEntry
    dsimp only
    rw [hL, hek]
    dsimp only
    rw [htk]
    dsimp only
    simp [hld]
  have hnp : p ∉ pathsOf (diffOps pol src tgt) :=
    not_mem_diff_paths_of_none hn hpe hnone
  refine ⟨fun op hop hpath => no_op_at_path hn hpe hnone op hop hpath,
    ?_, ?_⟩
  · intro reason hmem
    rcases execute_report_ext pol cp (diffOps pol src tgt)
      ⟨ChangeReport.empty, tgt⟩ with ⟨d, hd, hpd⟩
    have hsync : (sync pol cp src tgt).1.report =
        ChangeReport.empty.append d := hd
    rw [hsync] at hmem
    simp only [append_skips] at hmem
    rw [show ChangeReport.empty.skips = [] from rfl,
      List.nil_append] at hmem
    exact hnp (hpd p (skips_path_mem hmem))
  · intro e' hmem
    rcases execute_report_ext pol cp (diffOps pol src tgt)
      ⟨ChangeReport.empty, tgt⟩ with ⟨d, hd, hpd⟩
    have hsync : (sync pol cp src tgt).1.report =
        ChangeReport.empty.append d := hd
    rw [hsync] at hmem
    simp only [append_copies] at hmem
    rw [show ChangeReport.empty.copies = [] from rfl,
      List.nil_append] at hmem
    exact hnp (hpd p (copies_path_mem hmem))

theorem identical_leaf_no_op_witness :
    (["a","x.txt"], (⟨.leaf, 10, "c10"⟩ : Entry)) ∉
      (sync ⟨false, false, none, false, false, true⟩ perfectCopy
        [(["a"], ⟨.container, 0, ""⟩), (["a","x.txt"], ⟨.leaf, 10, "c10"⟩)]
        [(["a"], ⟨.container, 0, ""⟩),
          (["a","x.txt"], ⟨.leaf, 10, "c10"⟩)]).1.report.copies :=
  (identical_leaf_no_op ⟨false, false, none, false, false, true⟩ perfectCopy
    [(["a"], ⟨.container, 0, ""⟩), (["a","x.txt"], ⟨.leaf, 10, "c10"⟩)]
    [(["a"], ⟨.container, 0, ""⟩), (["a","x.txt"], ⟨.leaf, 10, "c10"⟩)]
    ["a","x.txt"] ⟨.leaf, 10, "c10"⟩ ⟨.leaf, 10, "c10"⟩
    (by decide) (by decide) (by decide) rfl rfl rfl
    (fun _ => rfl)).2.2 ⟨.leaf, 10, "c10"⟩

/-- C3 counterexample: the unqualified rule fails on the modelled engine at
two explicit inputs.  A container entry present in the source and absent
from the target yields no CreateContainer when it is empty and
copy_empty_containers is false (Scenario E of the spec), and a leaf entry
present in the source and absent from the target yields no CopyLeaf when it
lies beyond the max_depth bound. -/
theorem diff_missing_entry_counterexample :
    ((["empty"], (⟨.container, 0, ""⟩ : Entry)) ∈
        ([(["empty"], ⟨.container, 0, ""⟩)] : Domain) ∧
      lookupEntry ([] : Domain) ["empty"] = none ∧
      diffOps ⟨true, true, none, false, false, true⟩
        [(["empty"], ⟨.container, 0, ""⟩)] [] = []) ∧
    ((["a","b"], (⟨.leaf, 3, "c3"⟩ : Entry)) ∈
        ([(["a"], ⟨.container, 0, ""⟩), (["a","b"], ⟨.leaf, 3, "c3"⟩)] :
          Domain) ∧
      lookupEntry ([] : Domain) ["a","b"] = none ∧
      diffOps ⟨true, true, some 1, false, false, true⟩
        [(["a"], ⟨.container, 0, ""⟩), (["a","b"], ⟨.leaf, 3, "c3"⟩)] [] =
        [.createContainer ["a"]]) := by
  decide

/-- C3 amended: for every source entry that lies within the depth bound and
is absent from the target, the Diff Engine emits CopyLeaf when its kind is
LEAF, and CreateContainer when its kind is CONTAINER provided
copy_empty_containers is set or the container is non-empty below; for
Scenario A (source container a with leaf a/x.txt of 10 bytes, empty target)
the emitted list is exactly [CreateContainer a, CopyLeaf a/x.txt] in that
order and the report of the run lists exactly one container created and one
file copied. -/
theorem diff_missing_entry_ops (pol : TransferPolicy) (src tgt : Domain)
    (p : RelPath) (e : Entry) (hpe : (p, e) ∈ src)
    (hdep : depthOk pol.max_depth p = true)
    (hL : lookupEntry tgt p = none) :
    (e.kind = .leaf → Operation.copyLeaf p e ∈ diffOps pol src tgt) ∧
    (e.kind = .container →
      (pol.copy_empty_containers || hasDescendant src p) = true →
      Operation.createContainer p ∈ diffOps pol src tgt) ∧
    diffOps ⟨false, false, none, false, false, true⟩
        [(["a"], ⟨.container, 0, ""⟩), (["a","x.txt"], ⟨.leaf, 10, "c10"⟩)]
        [] =
      [.createContainer ["a"],
        .copyLeaf ["a","x.txt"] ⟨.leaf, 10, "c10"⟩] ∧
    (sync ⟨false, false, none, false, false, true⟩ perfectCopy
        [(["a"], ⟨.container, 0, ""⟩), (["a","x.txt"], ⟨.leaf, 10, "c10"⟩)]
        []).1.report =
      ⟨[["a"]], [(["a","x.txt"], ⟨.leaf, 10, "c10"⟩)], [], [], []⟩ := by
  refine ⟨?_, ?_, by decide, by decide⟩
  · intro hk
    apply mem_diffOps.2
    refine ⟨(p, e), hpe, hdep, ?_⟩
    unfold diffEntry
    dsimp only
    rw [hL, hk]
  · intro hk hcond
    apply mem_diffOps.2
    refine ⟨(p, e), hpe, hdep, ?_⟩
    unfold diffEntry
    dsimp only
    rw [hL, hk]
    dsimp only
    simp [hcond]

theorem diff_missing_entry_ops_witness :
    Operation.copyLeaf ["b.txt"] ⟨.leaf, 7, "c7"⟩ ∈
      diffOps ⟨false, false, none, false, false, true⟩
        [(["b.txt"], ⟨.leaf, 7, "c7"⟩)] [] :=
  (diff_missing_entry_ops ⟨false, false, none, false, false, true⟩
    [(["b.txt"], ⟨.leaf, 7, "c7"⟩)] [] ["b.txt"] ⟨.leaf, 7, "c7"⟩
    (by decide) rfl rfl).1 rfl

/-- C1: for every CopyLeaf that the ChangeReport of a non-dry-run
synchronization marks as completed, the entry now stored at the target path
has the source leaf's size and, whenever checksum verification is requested
by the policy, the source leaf's checksum; re-walking the final target
(the depth-bounded enumeration walkEntries) observes the same entry. -/
theorem sync_completed_copies_verified (pol : TransferPolicy) (cp : CopyFn)
    (src tgt : Domain) (hn : (src.map Prod.fst).Nodup)
    (hdry : pol.dry_run = false) (p : RelPath) (e : Entry)
    (hc : (p, e) ∈ (sync pol cp src tgt).1.report.copies) :
    ∃ t, lookupEntry (sync pol cp src tgt).1.state p = some t ∧
      lookupEntry (walkEntries (sync pol cp src tgt).1.state pol.max_depth)
        p = some t ∧
      t.size = e.size ∧
      (pol.verify_checksum = true → t.checksum = e.checksum) := by
  unfold sync at hc ⊢
  have hok := execute_copies_verified pol cp hdry (diffOps pol src tgt)
    ⟨ChangeReport.empty, tgt⟩ (diffOps_paths_nodup hn)
    (fun p' e' hp' => absurd hp' (List.not_mem_nil _)) p e hc
  rcases hok with ⟨t, hLf, hk, hsz, hcs⟩
  have hdep : depthOk pol.max_depth p = true := by
    rcases execute_report_ext pol cp (diffOps pol src tgt)
      ⟨ChangeReport.empty, tgt⟩ with ⟨d, hd, hpd⟩
    have hrep : (execute pol cp (diffOps pol src tgt)
        ⟨ChangeReport.empty, tgt⟩).1.report =
        ChangeReport.empty.append d := hd
    rw [hrep] at hc
    simp only [append_copies] at hc
    rw [show ChangeReport.empty.copies = [] from rfl,
      List.nil_append] at hc
    have hpp := hpd p (copies_path_mem hc)
    simp only [pathsOf, List.mem_map] at hpp
    rcases hpp with ⟨op, hop, hpath⟩
    rw [← hpath]
    exact (path_mem_of_mem_diffOps hop).2
  exact ⟨t, hLf, by rw [lookup_walkEntries _ _ _ hdep]; exact hLf, hsz, hcs⟩

theorem sync_completed_copies_verified_witness :
    (([(["x.txt"], (⟨.leaf, 4, "c4"⟩ : Entry))] : Domain).map
        Prod.fst).Nodup ∧
    (["x.txt"], (⟨.leaf, 4, "c4"⟩ : Entry)) ∈
      (sync ⟨true, false, none, false, false, true⟩ perfectCopy
        [(["x.txt"], ⟨.leaf, 4, "c4"⟩)] []).1.report.copies ∧
    ∃ t, lookupEntry (sync ⟨true, false, none, false, false, true⟩
        perfectCopy [(["x.txt"], ⟨.leaf, 4, "c4"⟩)] []).1.state ["x.txt"] =
        some t ∧
      lookupEntry (walkEntries
        (sync ⟨true, false, none, false, false, true⟩ perfectCopy
          [(["x.txt"], ⟨.leaf, 4, "c4"⟩)] []).1.state none) ["x.txt"] =
        some t ∧
      t.size = (⟨.leaf, 4, "c4"⟩ : Entry).size ∧
      ((⟨true, false, none, false, false, true⟩ :
          TransferPolicy).verify_checksum = true →
        t.checksum = (⟨.leaf, 4, "c4"⟩ : Entry).checksum) :=
  ⟨by decide, by decide,
    sync_completed_copies_verified ⟨true, false, none, false, false, true⟩
      perfectCopy [(["x.txt"], ⟨.leaf, 4, "c4"⟩)] [] (by decide) rfl
      ["x.txt"] ⟨.leaf, 4, "c4"⟩ (by decide)⟩

/-- C6 counterexample: the claim fails for policies that leave a
conflicting or failing item in place.  First input: overwrite = false,
ignore_err = true, differing leaf a.txt in source (12 bytes) and target
(10 bytes): the first run completes successfully (it records a
warning-level skip) and the second run's report again records a skip, so
the second ChangeReport is not empty.  Second input: a transport that
always fails with ignore_err = true: the first run completes with a
recorded warning and the second run's report again records a warning. -/
theorem sync_idempotent_counterexample :
    ((sync ⟨false, true, none, false, false, true⟩ perfectCopy
        [(["a.txt"], ⟨.leaf, 12, "h12"⟩)]
        [(["a.txt"], ⟨.leaf, 10, "h10"⟩)]).2 = none ∧
      (sync ⟨false, true, none, false, false, true⟩ perfectCopy
        [(["a.txt"], ⟨.leaf, 12, "h12"⟩)]
        (sync ⟨false, true, none, false, false, true⟩ perfectCopy
          [(["a.txt"], ⟨.leaf, 12, "h12"⟩)]
          [(["a.txt"], ⟨.leaf, 10, "h10"⟩)]).1.state).1.report.skips
        ≠ []) ∧
    ((sync ⟨true, true, none, false, false, true⟩
        (fun _ _ => .ioFailure "network error")
        [(["a.txt"], ⟨.leaf, 12, "h12"⟩)] []).2 = none ∧
      (sync ⟨true, true, none, false, false, true⟩
        (fun _ _ => .ioFailure "network error")
        [(["a.txt"], ⟨.leaf, 12, "h12"⟩)]
        (sync ⟨true, true, none, false, false, true⟩
          (fun _ _ => .ioFailure "network error")
          [(["a.txt"], ⟨.leaf, 12, "h12"⟩)] []).1.state).1.report.warnings
        ≠ []) := by
  decide

/-- C6 amended: when a non-dry-run synchronization completes successfully
(no fatal error) and its ChangeReport records no skips and no warnings, an
immediately repeated run against the unchanged source and the resulting
target produces the empty ChangeReport and leaves the target as it is —
for any copy primitive used by the second run. -/
theorem sync_idempotent (pol : TransferPolicy) (cp cp2 : CopyFn)
    (src tgt : Domain) (hn : (src.map Prod.fst).Nodup)
    (hdry : pol.dry_run = false)
    (hok : (sync pol cp src tgt).2 = none)
    (hsk : (sync pol cp src tgt).1.report.skips = [])
    (hwn : (sync pol cp src tgt).1.report.warnings = []) :
    sync pol cp2 src (sync pol cp src tgt).1.state =
      (⟨ChangeReport.empty, (sync pol cp src tgt).1.state⟩, none) := by
  unfold sync at hok hsk hwn ⊢
  rcases hrun : execute pol cp (diffOps pol src tgt)
    ⟨ChangeReport.empty, tgt⟩ with ⟨fin, ferr⟩
  rw [hrun] at hok hsk hwn
  dsimp only at hok hsk hwn
  subst hok
  have hsk' : fin.report.skips =
      (⟨ChangeReport.empty, tgt⟩ : ExecState).report.skips := by
    rw [hsk]; rfl
  have hwn' : fin.report.warnings =
      (⟨ChangeReport.empty, tgt⟩ : ExecState).report.warnings := by
    rw [hwn]; rfl
  have hpost := execute_success_post pol cp hdry (diffOps pol src tgt)
    ⟨ChangeReport.empty, tgt⟩ fin (diffOps_paths_nodup hn) hrun hsk' hwn'
  have hfr : ∀ q, q ∉ pathsOf (diffOps pol src tgt) →
      lookupEntry fin.state q = lookupEntry tgt q := by
    intro q hq
    have h := execute_state_frame pol cp (diffOps pol src tgt)
      ⟨ChangeReport.empty, tgt⟩ q hq
    rw [hrun] at h
    exact h
  have hdiff2 : diffOps pol src fin.state = [] := by
    unfold diffOps
    apply List.filterMap_eq_nil_iff.2
    intro pe hpe'
    obtain ⟨p, e⟩ := pe
    rcases List.mem_filter.1 hpe' with ⟨hmem, hdep⟩
    cases hde : diffEntry pol src tgt (p, e) with
    | none =>
      have hnp : p ∉ pathsOf (diffOps pol src tgt) :=
        not_mem_diff_paths_of_none hn hmem hde
      have hcong := @diffEntry_congr pol src tgt fin.state (p, e)
        (hfr p hnp)
      rw [hcong]
      exact hde
    | some op =>
      have hop : op ∈ diffOps pol src tgt :=
        mem_diffOps.2 ⟨(p, e), hmem, hdep, hde⟩
      have hpost' := hpost op hop
      cases op with
      | skipOp p0 r0 => exact hpost'.elim
      | createContainer p0 =>
        rcases diffEntry_createContainer_elim hde with ⟨hp0, hkind, hLtgt⟩
        subst hp0
        have hfin := hpost' hLtgt
        unfold diffEntry
        dsimp only
        rw [hfin, hkind]
      | copyLeaf p0 e0 =>
        rcases diffEntry_copyLeaf_elim hde with ⟨hp0, he0, hkind⟩
        subst hp0
        subst he0
        rcases hpost' with ⟨t, hfin, htk, hv⟩
        have hld := leafDiffers_false_of_verified hv
        unfold diffEntry
        dsimp only
        rw [hfin, hkind]
        dsimp only
        rw [htk]
        dsimp only
        simp [hld]
  rw [hdiff2]
  rfl

theorem sync_idempotent_witness :
    (([(["a"], (⟨.container, 0, ""⟩ : Entry)),
        (["a","x.txt"], (⟨.leaf, 10, "c10"⟩ : Entry))] : Domain).map
        Prod.fst).Nodup ∧
    (sync ⟨true, false, none, false, false, true⟩ perfectCopy
      [(["a"], ⟨.container, 0, ""⟩), (["a","x.txt"], ⟨.leaf, 10, "c10"⟩)]
      []).2 = none ∧
    sync ⟨true, false, none, false, false, true⟩ perfectCopy
      [(["a"], ⟨.container, 0, ""⟩), (["a","x.txt"], ⟨.leaf, 10, "c10"⟩)]
      (sync ⟨true, false, none, false, false, true⟩ perfectCopy
        [(["a"], ⟨.container, 0, ""⟩), (["a","x.txt"], ⟨.leaf, 10, "c10"⟩)]
        []).1.state =
      (⟨ChangeReport.empty,
        (sync ⟨true, false, none, false, false, true⟩ perfectCopy
          [(["a"], ⟨.container, 0, ""⟩),
            (["a","x.txt"], ⟨.leaf, 10, "c10"⟩)] []).1.state⟩, none) :=
  ⟨by decide, by decide,
    sync_idempotent ⟨true, false, none, false, false, true⟩ perfectCopy
      perfectCopy
      [(["a"], ⟨.container, 0, ""⟩), (["a","x.txt"], ⟨.leaf, 10, "c10"⟩)]
      [] (by decide) rfl (by decide) (by decide) (by decide)⟩
